import Mathlib

/-!
Verification of the wavetable-synthesis and output-formatting components of
the audio-analysis repository, as a shallow embedding in Lean 4.

The embedding follows `src/audio_analysis/wavetable.py` and
`src/audio_analysis/formatter.py`:
* numpy float arrays are modelled as `List ℝ` (for the inverse-DFT path,
  whose claims are about exact real arithmetic) or `List ℚ` (for the purely
  rational morphing / rescaling paths, keeping everything decidable);
* `np.fft.ifft` is the textbook inverse discrete Fourier transform
  `a[n] = (1/N) * Σ_k A[k] * exp(2*pi*I*k*n/N)`;
* a python call that raises is modelled as `Option.none`;
* numpy slice-assignment broadcasting is modelled explicitly: assigning a
  vector of length r to a slice of length m succeeds iff `r = m` or `r = 1`
  (the length-1 vector is repeated across the slice).
-/

/-! ## Peak absolute amplitude, `np.max(np.abs(v))` -/

/-- Peak absolute amplitude of a sample list: `np.max(np.abs(v))`, with the
convention that the empty list has peak 0 (all lists the claims touch are
nonempty, and every entry's absolute value is nonnegative, so folding from
0 agrees with numpy's max on nonempty lists). -/
def peakAbs {α : Type} [LinearOrderedField α] (l : List α) : α :=
  l.foldr (fun x m => max |x| m) 0

@[simp] theorem peakAbs_nil {α : Type} [LinearOrderedField α] :
    peakAbs ([] : List α) = 0 := rfl

@[simp] theorem peakAbs_cons {α : Type} [LinearOrderedField α] (x : α) (l : List α) :
    peakAbs (x :: l) = max |x| (peakAbs l) := rfl

theorem peakAbs_nonneg {α : Type} [LinearOrderedField α] (l : List α) :
    0 ≤ peakAbs l := by
  induction l with
  | nil => simp
  | cons x xs ih => simp only [peakAbs_cons, le_max_iff]; exact Or.inr ih

theorem abs_le_peakAbs {α : Type} [LinearOrderedField α] {x : α} {l : List α}
    (hx : x ∈ l) : |x| ≤ peakAbs l := by
  induction l with
  | nil => cases hx
  | cons y ys ih =>
      rcases List.mem_cons.mp hx with h | h
      · subst h; simp
      · exact le_trans (ih h) (by simp)

theorem peakAbs_le {α : Type} [LinearOrderedField α] {l : List α} {b : α}
    (hb : 0 ≤ b) (h : ∀ x ∈ l, |x| ≤ b) : peakAbs l ≤ b := by
  induction l with
  | nil => simpa using hb
  | cons y ys ih =>
      simp only [peakAbs_cons, max_le_iff]
      exact ⟨h y (by simp), ih (fun x hx => h x (by simp [hx]))⟩

theorem peakAbs_map_mul {α : Type} [LinearOrderedField α] (l : List α) {c : α}
    (hc : 0 ≤ c) : peakAbs (l.map (fun x => x * c)) = peakAbs l * c := by
  induction l with
  | nil => simp
  | cons y ys ih =>
      simp only [List.map_cons, peakAbs_cons, ih, abs_mul, abs_of_nonneg hc]
      rcases le_total |y| (peakAbs ys) with h | h
      · rw [max_eq_right h, max_eq_right (by exact mul_le_mul_of_nonneg_right h hc)]
      · rw [max_eq_left h, max_eq_left (by exact mul_le_mul_of_nonneg_right h hc)]

theorem peakAbs_eq_zero_iff {α : Type} [LinearOrderedField α] (l : List α) :
    peakAbs l = 0 ↔ ∀ x ∈ l, x = 0 := by
  induction l with
  | nil => simp
  | cons y ys ih =>
      simp only [peakAbs_cons, List.mem_cons]
      constructor
      · intro h
        have hy : |y| ≤ 0 := h ▸ le_max_left _ _
        have hys : peakAbs ys ≤ 0 := h ▸ le_max_right _ _
        have h1 : y = 0 := abs_nonpos_iff.mp hy
        have h2 : ∀ x ∈ ys, x = 0 := ih.mp (le_antisymm hys (peakAbs_nonneg ys))
        intro x hx
        rcases hx with h | h
        · exact h ▸ h1
        · exact h2 x h
      · intro h
        have hy : y = 0 := h y (Or.inl rfl)
        have hys : peakAbs ys = 0 := ih.mpr (fun x hx => h x (Or.inr hx))
        simp [hy, hys]

/-! ## Spectrum-to-waveform reconstruction
(`WavetableSynthesizer.create_wavetable_from_spectrum`, wavetable.py lines 20-55) -/

/-- Step `if len(spectrum) > wavetable_size // 2: spectrum = spectrum[:wavetable_size // 2]`. -/
def truncSpec (spectrum : List ℝ) (wavetable_size : ℕ) : List ℝ :=
  if wavetable_size / 2 < spectrum.length then spectrum.take (wavetable_size / 2)
  else spectrum

/-- Steps `complex_spectrum = np.zeros(wavetable_size, dtype=complex)` and
`complex_spectrum[:len(spectrum)] = spectrum`: the (truncated) real spectrum
sits in the low bins, everything above is zero. -/
def specArr (ts : List ℝ) (N : ℕ) : Fin N → ℂ := fun k =>
  if h : (k : ℕ) < ts.length then ((ts.get ⟨k, h⟩ : ℝ) : ℂ) else 0

/-- Length of the slice `complex_spectrum[wavetable_size//2+1:]`, the target
of the mirror assignment. -/
def mirrorLhsLen (N : ℕ) : ℕ := N - (N / 2 + 1)

/-- Length of the slice `complex_spectrum[1:wavetable_size//2]`, whose
reversal is the source of the mirror assignment. -/
def mirrorRhsLen (N : ℕ) : ℕ := N / 2 - 1

/-- Whether the numpy slice assignment
`complex_spectrum[N//2+1:] = np.conj(complex_spectrum[1:N//2][::-1])`
succeeds: it is skipped when `N ≤ 1` (the code guards it with
`if wavetable_size > 1`), and otherwise numpy accepts the assignment iff the
source length equals the target length or the source has length 1 (in which
case the single value is broadcast across the target). Any other shape pair
raises `ValueError: could not broadcast`. -/
def mirrorOk (N : ℕ) : Bool :=
  N ≤ 1 || mirrorLhsLen N == mirrorRhsLen N || mirrorRhsLen N == 1

/-- The complex spectrum after the Hermitian mirror assignment. Position
`j ≥ N/2 + 1` receives `conj(complex_spectrum[N - j])` when the source and
target slices have equal length (the reversed slice `[1:N//2]` lines up so
that target position `j` reads source position `N - j`), and receives the
broadcast value `conj(complex_spectrum[1])` when the source slice has
length 1. The value is only consulted when `mirrorOk N` holds. -/
def mirrorSpec (N : ℕ) (c0 : Fin N → ℂ) : Fin N → ℂ := fun j =>
  if h : N / 2 + 1 ≤ (j : ℕ) ∧ 1 < N then
    have hj : (j : ℕ) < N := j.isLt
    if mirrorLhsLen N = mirrorRhsLen N then
      (starRingEnd ℂ) (c0 ⟨N - (j : ℕ), by omega⟩)
    else
      (starRingEnd ℂ) (c0 ⟨1, h.2⟩)
  else c0 j

/-- Real part of entry `n` of `np.fft.ifft(c)`:
`a[n] = (1/N) * Σ_k c[k] * exp(2*pi*I*k*n/N)`, followed by `.real`. -/
noncomputable def idftRe (N : ℕ) (c : Fin N → ℂ) (n : Fin N) : ℝ :=
  ((1 / (N : ℂ)) * ∑ k : Fin N,
    c k * Complex.exp (2 * (Real.pi : ℂ) * Complex.I * ((k : ℕ) : ℂ) * ((n : ℕ) : ℂ) / (N : ℂ))).re

open Classical in
/-- Peak normalization: `if np.max(np.abs(wavetable)) > 0: wavetable = wavetable / np.max(np.abs(wavetable))`. -/
noncomputable def normalizePeak (w : List ℝ) : List ℝ :=
  if 0 < peakAbs w then w.map (fun x => x / peakAbs w) else w

/-- Shallow embedding of `WavetableSynthesizer.create_wavetable_from_spectrum`:
truncate the magnitude spectrum to `wavetable_size // 2` bins, embed it into a
zero complex spectrum, mirror the low bins conjugated onto the high bins
(raising, i.e. `none`, when the numpy slice shapes cannot broadcast), take the
real part of the inverse DFT, and peak-normalize unless the peak is zero.
`N = 0` is also `none`: `np.fft.ifft` rejects an empty input. -/
noncomputable def create_wavetable_from_spectrum (spectrum : List ℝ) (N : ℕ) :
    Option (List ℝ) :=
  if N = 0 then none
  else if mirrorOk N then
    let ts := truncSpec spectrum N
    let c := mirrorSpec N (specArr ts N)
    let w := (List.finRange N).map (idftRe N c)
    some (normalizePeak w)
  else none

/-! ### Supporting lemmas about the reconstruction -/

theorem mirrorOk_iff (N : ℕ) :
    mirrorOk N = true ↔
      N ≤ 1 ∨ mirrorLhsLen N = mirrorRhsLen N ∨ mirrorRhsLen N = 1 := by
  simp [mirrorOk, or_assoc]

theorem mirrorOk_of_even {N : ℕ} (h : N % 2 = 0) : mirrorOk N = true :=
  (mirrorOk_iff N).mpr (by unfold mirrorLhsLen mirrorRhsLen; omega)

theorem truncSpec_length_le (spectrum : List ℝ) (N : ℕ) :
    (truncSpec spectrum N).length ≤ N / 2 := by
  unfold truncSpec
  split
  · simp only [List.length_take]; omega
  · omega

theorem truncSpec_sub (spectrum : List ℝ) (N : ℕ) {x : ℝ}
    (hx : x ∈ truncSpec spectrum N) : x ∈ spectrum := by
  unfold truncSpec at hx
  split at hx
  · exact List.mem_of_mem_take hx
  · exact hx

theorem normalizePeak_length (w : List ℝ) :
    (normalizePeak w).length = w.length := by
  unfold normalizePeak
  split
  · simp
  · rfl

theorem peakAbs_normalizePeak_of_pos {w : List ℝ} (h : 0 < peakAbs w) :
    peakAbs (normalizePeak w) = 1 := by
  unfold normalizePeak
  rw [if_pos h]
  simp only [div_eq_mul_inv]
  rw [peakAbs_map_mul w (inv_nonneg.mpr (le_of_lt h))]
  exact mul_inv_cancel₀ (ne_of_gt h)

theorem normalizePeak_of_nonpos {w : List ℝ} (h : ¬ 0 < peakAbs w) :
    normalizePeak w = w := by
  unfold normalizePeak
  rw [if_neg h]

theorem idftRe_zero (N : ℕ) (hN : 0 < N) (c : Fin N → ℂ) :
    idftRe N c ⟨0, hN⟩ = (1 / (N : ℝ)) * ∑ k : Fin N, (c k).re := by
  unfold idftRe
  have harg : ∀ k : Fin N,
      c k * Complex.exp (2 * (Real.pi : ℂ) * Complex.I * ((k : ℕ) : ℂ) *
        (((⟨0, hN⟩ : Fin N) : ℕ) : ℂ) / (N : ℂ)) = c k := by
    intro k
    simp
  rw [Finset.sum_congr rfl (fun k _ => harg k)]
  have hcast : (1 / (N : ℂ)) = (((1 / (N : ℝ)) : ℝ) : ℂ) := by push_cast; ring
  rw [hcast, Complex.re_ofReal_mul, Complex.re_sum]

theorem specArr_re_nonneg {ts : List ℝ} {N : ℕ} (hnn : ∀ x ∈ ts, 0 ≤ x)
    (k : Fin N) : 0 ≤ (specArr ts N k).re := by
  unfold specArr
  split
  · simpa using hnn _ (ts.get_mem _ _)
  · simp

theorem mirrorSpec_re_nonneg {N : ℕ} {c0 : Fin N → ℂ}
    (h0 : ∀ k, 0 ≤ (c0 k).re) (j : Fin N) : 0 ≤ (mirrorSpec N c0 j).re := by
  unfold mirrorSpec
  split
  · split
    · rw [Complex.conj_re]; exact h0 _
    · rw [Complex.conj_re]; exact h0 _
  · exact h0 j

theorem mirrorSpec_low {N : ℕ} (c0 : Fin N → ℂ) (j : Fin N)
    (hj : (j : ℕ) < N / 2 + 1) : mirrorSpec N c0 j = c0 j := by
  unfold mirrorSpec
  rw [dif_neg]
  omega

/-- Each entry of `truncSpec` sits untouched in the mirrored complex
spectrum: positions below `N/2 + 1` are not overwritten by the mirror
assignment, and the initial write put the spectrum value there. -/
theorem mirrorSpec_specArr_eq {spectrum : List ℝ} {N : ℕ} {j : ℕ}
    (hj : j < (truncSpec spectrum N).length) (hN : 0 < N) :
    (mirrorSpec N (specArr (truncSpec spectrum N) N)
      ⟨j, lt_of_lt_of_le hj (le_trans (truncSpec_length_le spectrum N) (le_of_lt (Nat.div_lt_self hN one_lt_two)))⟩).re
      = (truncSpec spectrum N).get ⟨j, hj⟩ := by
  have hlen := truncSpec_length_le spectrum N
  rw [mirrorSpec_low _ _ (by simpa using by omega : (((⟨j, _⟩ : Fin N)) : ℕ) < N / 2 + 1)]
  unfold specArr
  rw [dif_pos hj]
  exact Complex.ofReal_re _

theorem create_eq_of_ok {spectrum : List ℝ} {N : ℕ} (hN : N ≠ 0)
    (hok : mirrorOk N = true) :
    create_wavetable_from_spectrum spectrum N =
      some (normalizePeak ((List.finRange N).map
        (idftRe N (mirrorSpec N (specArr (truncSpec spectrum N) N))))) := by
  unfold create_wavetable_from_spectrum
  rw [if_neg hN, if_pos hok]

theorem specArr_zero {ts : List ℝ} {N : ℕ} (hz : ∀ x ∈ ts, x = 0) :
    specArr ts N = fun _ => 0 := by
  funext k
  unfold specArr
  split
  · rename_i h
    rw [hz _ (ts.get_mem _ h)]
    exact Complex.ofReal_zero
  · rfl

theorem mirrorSpec_zero (N : ℕ) : mirrorSpec N (fun _ => (0 : ℂ)) = fun _ => 0 := by
  funext j
  unfold mirrorSpec
  split
  · split <;> simp
  · rfl

theorem idftRe_zero_fn (N : ℕ) (n : Fin N) : idftRe N (fun _ => 0) n = 0 := by
  unfold idftRe
  simp

/-- With an all-zero (truncated) spectrum the pre-normalization waveform is
the all-zero list. -/
theorem waveform_zero {spectrum : List ℝ} {N : ℕ}
    (hz : ∀ x ∈ truncSpec spectrum N, x = 0) :
    (List.finRange N).map (idftRe N (mirrorSpec N (specArr (truncSpec spectrum N) N)))
      = List.replicate N 0 := by
  rw [specArr_zero hz, mirrorSpec_zero]
  rw [List.eq_replicate_iff]
  refine ⟨by simp, ?_⟩
  intro b hb
  rcases List.mem_map.mp hb with ⟨n, _, hn⟩
  rw [← hn, idftRe_zero_fn]

theorem normalizePeak_replicate_zero (N : ℕ) :
    normalizePeak (List.replicate N (0 : ℝ)) = List.replicate N 0 := by
  apply normalizePeak_of_nonpos
  have h : peakAbs (List.replicate N (0 : ℝ)) = 0 :=
    (peakAbs_eq_zero_iff _).mpr (fun x hx => (List.eq_of_mem_replicate hx))
  rw [h]
  exact lt_irrefl 0

theorem create_zero_of_trunc_zero {spectrum : List ℝ} {N : ℕ} (hN : N ≠ 0)
    (hok : mirrorOk N = true) (hz : ∀ x ∈ truncSpec spectrum N, x = 0) :
    create_wavetable_from_spectrum spectrum N = some (List.replicate N 0) := by
  rw [create_eq_of_ok hN hok, waveform_zero hz, normalizePeak_replicate_zero]

/-- With a nonnegative spectrum whose truncation has a positive bin, the
pre-normalization waveform has positive peak: its sample at index 0 is
`(1/N) * Σ_k Re(c[k])`, a sum of nonnegative terms one of which is positive. -/
theorem peak_pos_of_trunc_pos {spectrum : List ℝ} {N : ℕ} (hN : 0 < N)
    (hnn : ∀ x ∈ spectrum, 0 ≤ x) {j : ℕ}
    (hj : j < (truncSpec spectrum N).length)
    (hpos : 0 < (truncSpec spectrum N).get ⟨j, hj⟩) :
    0 < peakAbs ((List.finRange N).map
      (idftRe N (mirrorSpec N (specArr (truncSpec spectrum N) N)))) := by
  set ts := truncSpec spectrum N with hts
  set c := mirrorSpec N (specArr ts N) with hcdef
  have hnnts : ∀ x ∈ ts, 0 ≤ x := fun x hx => hnn x (truncSpec_sub spectrum N hx)
  have hnnc : ∀ k, 0 ≤ (c k).re :=
    mirrorSpec_re_nonneg (specArr_re_nonneg hnnts)
  have hjN : j < N :=
    lt_of_lt_of_le hj (le_trans (truncSpec_length_le spectrum N)
      (le_of_lt (Nat.div_lt_self hN one_lt_two)))
  have hcj := mirrorSpec_specArr_eq hj hN
  have hsum : 0 < ∑ k : Fin N, (c k).re := by
    apply Finset.sum_pos' (fun k _ => hnnc k)
    refine ⟨⟨j, hjN⟩, Finset.mem_univ _, ?_⟩
    have : (c ⟨j, hjN⟩).re = ts.get ⟨j, hj⟩ := hcj
    rw [this]
    exact hpos
  have hx0 : 0 < idftRe N c ⟨0, hN⟩ := by
    rw [idftRe_zero N hN c]
    exact mul_pos (one_div_pos.mpr (Nat.cast_pos.mpr hN)) hsum
  have hmem : idftRe N c ⟨0, hN⟩ ∈ (List.finRange N).map (idftRe N c) :=
    List.mem_map_of_mem _ (List.mem_finRange _)
  exact lt_of_lt_of_le hx0 (le_trans (le_abs_self _) (abs_le_peakAbs hmem))

/-! ### Claim theorems for the reconstructor -/

/-- C1 (amended): for every even positive `wavetable_size` and nonnegative
magnitude spectrum, `create_wavetable_from_spectrum` returns a real waveform
of exactly `wavetable_size` samples with peak absolute amplitude at most 1;
the peak equals 1 exactly when the spectrum restricted to the first
`wavetable_size/2` bins (the part that survives truncation) has a positive
bin, and when those bins are all zero the waveform is all-zero (peak 0),
even if the spectrum is nonzero beyond the truncation point. -/
theorem create_wavetable_peak_spec (N : ℕ) (hN : 0 < N) (he : N % 2 = 0)
    (spectrum : List ℝ) (hnn : ∀ x ∈ spectrum, 0 ≤ x) :
    ∃ w, create_wavetable_from_spectrum spectrum N = some w
      ∧ w.length = N
      ∧ peakAbs w ≤ 1
      ∧ ((∃ j, ∃ hj : j < (truncSpec spectrum N).length,
            0 < (truncSpec spectrum N).get ⟨j, hj⟩) → peakAbs w = 1)
      ∧ ((∀ x ∈ truncSpec spectrum N, x = 0) → w = List.replicate N 0) := by
  have hN0 : N ≠ 0 := Nat.pos_iff_ne_zero.mp hN
  have hok := mirrorOk_of_even he
  refine ⟨_, create_eq_of_ok hN0 hok, ?_, ?_, ?_, ?_⟩
  · rw [normalizePeak_length]; simp
  · by_cases hp : 0 < peakAbs ((List.finRange N).map
        (idftRe N (mirrorSpec N (specArr (truncSpec spectrum N) N))))
    · rw [peakAbs_normalizePeak_of_pos hp]
    · rw [normalizePeak_of_nonpos hp]
      exact le_trans (le_of_not_lt hp) zero_le_one
  · rintro ⟨j, hj, hpos⟩
    exact peakAbs_normalizePeak_of_pos (peak_pos_of_trunc_pos hN hnn hj hpos)
  · intro hz
    rw [waveform_zero hz, normalizePeak_replicate_zero]

/-- C1 witness: at `wavetable_size = 2` and spectrum `[1]` the hypotheses of
the amended claim hold and the theorem applies. -/
theorem create_wavetable_peak_spec_witness :
    (0 < 2 ∧ 2 % 2 = 0 ∧ (∀ x ∈ [(1 : ℝ)], 0 ≤ x)) ∧
    (∃ w, create_wavetable_from_spectrum [(1 : ℝ)] 2 = some w
      ∧ w.length = 2
      ∧ peakAbs w ≤ 1
      ∧ ((∃ j, ∃ hj : j < (truncSpec [(1 : ℝ)] 2).length,
            0 < (truncSpec [(1 : ℝ)] 2).get ⟨j, hj⟩) → peakAbs w = 1)
      ∧ ((∀ x ∈ truncSpec [(1 : ℝ)] 2, x = 0) → w = List.replicate 2 0)) :=
  ⟨⟨by norm_num, by norm_num, by norm_num⟩,
    create_wavetable_peak_spec 2 (by norm_num) (by norm_num) [(1 : ℝ)] (by norm_num)⟩

/-- C1 counterexample: the spectrum `[0, 0, 1]` is nonnegative and not
all-zero, and `wavetable_size = 4` is even and positive, yet the returned
waveform is all-zero with peak 0, not 1: the only nonzero bin lies at or
beyond index `wavetable_size/2 = 2` and is discarded by the truncation
step. -/
theorem create_wavetable_peak_cex :
    create_wavetable_from_spectrum [(0 : ℝ), 0, 1] 4 = some (List.replicate 4 0)
    ∧ (1 : ℝ) ∈ [(0 : ℝ), 0, 1] ∧ (1 : ℝ) ≠ 0
    ∧ peakAbs (List.replicate 4 (0 : ℝ)) = 0 ∧ ((0 : ℝ) ≠ 1) := by
  refine ⟨?_, by norm_num, by norm_num, ?_, by norm_num⟩
  · apply create_zero_of_trunc_zero (by norm_num) (by decide)
    intro x hx
    rw [truncSpec] at hx
    norm_num at hx
    exact hx
  · rw [(peakAbs_eq_zero_iff _)]
    intro x hx
    exact List.eq_of_mem_replicate hx

/-- C2 (amended): for every even positive `wavetable_size` (and any
magnitude spectrum), `create_wavetable_from_spectrum` completes without
raising and returns a waveform of exactly `wavetable_size` samples. (The
frozen claim allowed odd sizes as well; the counterexample shows size 3
raises a broadcast error in the Hermitian-mirror slice assignment.) -/
theorem create_wavetable_total_even (N : ℕ) (hN : 0 < N) (he : N % 2 = 0)
    (spectrum : List ℝ) :
    ∃ w, create_wavetable_from_spectrum spectrum N = some w ∧ w.length = N := by
  refine ⟨_, create_eq_of_ok (Nat.pos_iff_ne_zero.mp hN) (mirrorOk_of_even he), ?_⟩
  rw [normalizePeak_length]; simp

/-- C2 witness: size 2 with spectrum `[1]`. -/
theorem create_wavetable_total_even_witness :
    (0 < 2 ∧ 2 % 2 = 0) ∧
    (∃ w, create_wavetable_from_spectrum [(1 : ℝ)] 2 = some w ∧ w.length = 2) :=
  ⟨⟨by norm_num, by norm_num⟩,
    create_wavetable_total_even 2 (by norm_num) (by norm_num) [(1 : ℝ)]⟩

/-- C2 counterexample: `wavetable_size = 3` is a positive (odd) integer, yet
the call raises: the mirror assignment writes a length-0 slice into a
length-1 slice, which numpy cannot broadcast. -/
theorem create_wavetable_total_cex :
    create_wavetable_from_spectrum [(1 : ℝ)] 3 = none ∧ 0 < 3 := by
  constructor
  · rw [create_wavetable_from_spectrum]
    norm_num [mirrorOk, mirrorLhsLen, mirrorRhsLen]
  · norm_num

/-- C3: an all-zero magnitude spectrum yields an all-zero waveform: whenever
the call returns at all it returns the all-zero list of length
`wavetable_size` (in particular no NaN/Inf: the peak is 0, so the
normalization division is skipped), and for every even positive size the
call does return that all-zero waveform. -/
theorem create_wavetable_zero_spectrum (N : ℕ) (spectrum : List ℝ)
    (hz : ∀ x ∈ spectrum, x = 0) :
    (∀ w, create_wavetable_from_spectrum spectrum N = some w →
        w = List.replicate N 0)
    ∧ (0 < N → N % 2 = 0 →
        create_wavetable_from_spectrum spectrum N = some (List.replicate N 0)) := by
  have hz' : ∀ x ∈ truncSpec spectrum N, x = 0 :=
    fun x hx => hz x (truncSpec_sub spectrum N hx)
  constructor
  · intro w h
    by_cases hN : N = 0
    · subst hN
      rw [create_wavetable_from_spectrum] at h
      simp at h
    · by_cases hok : mirrorOk N = true
      · rw [create_zero_of_trunc_zero hN hok hz'] at h
        exact (Option.some_inj.mp h).symm
      · rw [create_wavetable_from_spectrum, if_neg hN, if_neg hok] at h
        exact absurd h (by simp)
  · intro hN he
    exact create_zero_of_trunc_zero (Nat.pos_iff_ne_zero.mp hN)
      (mirrorOk_of_even he) hz'

/-- C3 witness: size 2 with the zero spectrum `[0, 0]`. -/
theorem create_wavetable_zero_spectrum_witness :
    (∀ x ∈ [(0 : ℝ), 0], x = 0) ∧
    ((∀ w, create_wavetable_from_spectrum [(0 : ℝ), 0] 2 = some w →
        w = List.replicate 2 0)
    ∧ (0 < 2 → 2 % 2 = 0 →
        create_wavetable_from_spectrum [(0 : ℝ), 0] 2 = some (List.replicate 2 0))) :=
  ⟨by norm_num, create_wavetable_zero_spectrum 2 [(0 : ℝ), 0] (by norm_num)⟩

/-! ## Frame sampling
(`WavetableSynthesizer.create_wavetable_stack`, wavetable.py lines 57-84) -/

/-- C-style truncation toward zero, the conversion numpy's `dtype=int`
(astype) applies to each float of `np.linspace`. On nonnegative values it
agrees with the floor. -/
def npTrunc (q : ℚ) : ℤ := if 0 ≤ q then ⌊q⌋ else -⌊-q⌋

/-- Shallow embedding of
`frame_indices = np.linspace(0, num_frames - 1, num_tables, dtype=int)`:
`np.linspace(0, stop, num)` places point `i` at `i * stop / (num - 1)`
(with the single point at `start = 0` when `num = 1`, and no points when
`num = 0`), and `dtype=int` truncates each value toward zero. -/
def frame_indices (num_frames num_tables : ℕ) : List ℤ :=
  if num_tables = 1 then [0]
  else (List.range num_tables).map (fun i : ℕ =>
    npTrunc ((i : ℚ) * ((num_frames : ℚ) - 1) / ((num_tables : ℚ) - 1)))

/-- The index selection as the claim words it (rounding each real position
to the nearest integer) — stated from the spec for comparison with the
source's truncating `frame_indices`. -/
def frame_indices_rounded (num_frames num_tables : ℕ) : List ℤ :=
  if num_tables = 1 then [0]
  else (List.range num_tables).map (fun i : ℕ =>
    round ((i : ℚ) * ((num_frames : ℚ) - 1) / ((num_tables : ℚ) - 1)))

/-- Sequencing of a python loop whose body may raise: `none` as soon as one
element fails, otherwise the list of results. -/
def traverseOpt {α β : Type} (f : α → Option β) : List α → Option (List β)
  | [] => some []
  | a :: l =>
    match f a with
    | none => none
    | some b =>
      match traverseOpt f l with
      | none => none
      | some bs => some (b :: bs)

theorem traverseOpt_some_of {α β : Type} (f : α → Option β) (g : α → β)
    (l : List α) (h : ∀ a ∈ l, f a = some (g a)) :
    traverseOpt f l = some (l.map g) := by
  induction l with
  | nil => rfl
  | cons a l ih =>
      have ha : f a = some (g a) := h a (by simp)
      have hl := ih (fun x hx => h x (by simp [hx]))
      simp [traverseOpt, ha, hl]

theorem traverseOpt_none_of {α β : Type} (f : α → Option β) {l : List α}
    {a : α} (ha : a ∈ l) (h : f a = none) : traverseOpt f l = none := by
  induction l with
  | nil => cases ha
  | cons b bs ih =>
      rcases List.mem_cons.mp ha with hb | hb
      · subst hb
        simp [traverseOpt, h]
      · cases hfb : f b
        · simp [traverseOpt, hfb]
        · simp [traverseOpt, hfb, ih hb]

/-- Shallow embedding of `WavetableSynthesizer.create_wavetable_stack`: the
STFT magnitude matrix is `stft b t` (bin `b`, frame `t`) with
`num_frames = stft_matrix.shape[1]`; for each selected frame index the
column is extracted and reconstructed by `create_wavetable_from_spectrum`,
a raise anywhere making the whole call raise. -/
noncomputable def create_wavetable_stack (stft : ℕ → ℕ → ℝ) (num_bins num_frames : ℕ)
    (num_tables wavetable_size : ℕ) : Option (List (List ℝ)) :=
  traverseOpt
    (fun idx => create_wavetable_from_spectrum
      ((List.range num_bins).map (fun b => stft b idx.toNat)) wavetable_size)
    (frame_indices num_frames num_tables)

/-! ### Claim theorems for the frame sampler -/

theorem frame_indices_length (nf nt : ℕ) (hnt : nt ≠ 1) :
    (frame_indices nf nt).length = nt := by
  rw [frame_indices, if_neg hnt]
  simp

theorem frame_indices_getElem (nf nt : ℕ) (hnt : nt ≠ 1) (i : ℕ) (hi : i < nt) :
    (frame_indices nf nt)[i]? =
      some (npTrunc ((i : ℚ) * ((nf : ℚ) - 1) / ((nt : ℚ) - 1))) := by
  rw [frame_indices, if_neg hnt, List.getElem?_map, List.getElem?_range hi]
  rfl

/-- C4 (amended): for `num_frames ≥ 1` and `num_tables ≥ 2`,
`create_wavetable_stack`'s frame selection picks exactly `num_tables`
indices, index `i` sitting at the evenly spaced real position
`i * (num_frames - 1) / (num_tables - 1)` converted to an integer by
truncation toward zero (numpy's `dtype=int` cast — not rounding to
nearest, which is what the frozen claim said); the first selected index is
0 and the last is `num_frames - 1`, and every selected index lies in
`[0, num_frames - 1]`. With `num_tables = 1`, a single index, 0, is
selected. Duplicates arise freely when `num_tables` exceeds
`num_frames`. -/
theorem frame_sampler_selection (nf nt : ℕ) (hnf : 1 ≤ nf) (hnt : 2 ≤ nt) :
    (frame_indices nf nt).length = nt
    ∧ (∀ i, i < nt → (frame_indices nf nt)[i]? =
        some (npTrunc ((i : ℚ) * ((nf : ℚ) - 1) / ((nt : ℚ) - 1))))
    ∧ (frame_indices nf nt)[0]? = some 0
    ∧ (frame_indices nf nt)[nt - 1]? = some ((nf : ℤ) - 1)
    ∧ (∀ x ∈ frame_indices nf nt, 0 ≤ x ∧ x ≤ (nf : ℤ) - 1)
    ∧ frame_indices nf 1 = [0] := by
  have hnt1 : nt ≠ 1 := by omega
  have hntQ : (2 : ℚ) ≤ (nt : ℚ) := by exact_mod_cast hnt
  have hne : (nt : ℚ) - 1 ≠ 0 := by
    intro h
    nlinarith
  have hnfQ : (1 : ℚ) ≤ (nf : ℚ) := by exact_mod_cast hnf
  refine ⟨frame_indices_length nf nt hnt1, fun i hi => frame_indices_getElem nf nt hnt1 i hi, ?_, ?_, ?_, ?_⟩
  · rw [frame_indices_getElem nf nt hnt1 0 (by omega)]
    norm_num [npTrunc]
  · rw [frame_indices_getElem nf nt hnt1 (nt - 1) (by omega)]
    have hcast : (((nt - 1 : ℕ) : ℚ)) = (nt : ℚ) - 1 := by
      push_cast [Nat.cast_sub (by omega : 1 ≤ nt)]
      ring
    rw [hcast, mul_comm, mul_div_assoc, div_self hne, mul_one]
    have h0 : (0 : ℚ) ≤ (nf : ℚ) - 1 := by linarith
    rw [npTrunc, if_pos h0]
    have : ((nf : ℚ) - 1) = (((nf : ℤ) - 1 : ℤ) : ℚ) := by push_cast; ring
    rw [this, Int.floor_intCast]
  · intro x hx
    rw [frame_indices, if_neg hnt1] at hx
    rcases List.mem_map.mp hx with ⟨i, hi, hxi⟩
    have hiQ : (0 : ℚ) ≤ (i : ℚ) := by positivity
    have hiN : i < nt := List.mem_range.mp hi
    have hpos : (0 : ℚ) < (nt : ℚ) - 1 := by linarith
    have hq0 : (0 : ℚ) ≤ (i : ℚ) * ((nf : ℚ) - 1) / ((nt : ℚ) - 1) := by
      apply div_nonneg (mul_nonneg hiQ (by linarith)) (le_of_lt hpos)
    have hub : (i : ℚ) * ((nf : ℚ) - 1) / ((nt : ℚ) - 1) ≤ (nf : ℚ) - 1 := by
      rw [div_le_iff₀ hpos]
      have hile : (i : ℚ) ≤ (nt : ℚ) - 1 := by
        have : (i : ℚ) + 1 ≤ (nt : ℚ) := by exact_mod_cast hiN
        linarith
      nlinarith
    rw [← hxi, npTrunc, if_pos hq0]
    constructor
    · exact Int.floor_nonneg.mpr hq0
    · have hfl : (⌊((nf : ℚ) - 1)⌋ : ℤ) = (nf : ℤ) - 1 := by
        rw [show ((nf : ℚ) - 1) = (((nf : ℤ) - 1 : ℤ) : ℚ) by push_cast; ring,
          Int.floor_intCast]
      have hmono := Int.floor_le_floor hub
      rw [hfl] at hmono
      exact hmono
  · rw [frame_indices, if_pos rfl]

/-- C4 witness: three tables over four frames. -/
theorem frame_sampler_selection_witness :
    (1 ≤ 4 ∧ 2 ≤ 3) ∧
    ((frame_indices 4 3).length = 3
    ∧ (∀ i : ℕ, i < 3 → (frame_indices 4 3)[i]? =
        some (npTrunc ((i : ℚ) * (((4 : ℕ) : ℚ) - 1) / (((3 : ℕ) : ℚ) - 1))))
    ∧ (frame_indices 4 3)[0]? = some 0
    ∧ (frame_indices 4 3)[3 - 1]? = some (((4 : ℕ) : ℤ) - 1)
    ∧ (∀ x ∈ frame_indices 4 3, 0 ≤ x ∧ x ≤ ((4 : ℕ) : ℤ) - 1)
    ∧ frame_indices 4 1 = [0]) :=
  ⟨⟨by norm_num, by norm_num⟩, frame_sampler_selection 4 3 (by norm_num) (by norm_num)⟩

/-- C4 counterexample: with 4 frames and 3 tables the middle selected index
is `int(1.5) = 1`, while rounding the position `1.5` to the nearest integer
gives 2: the code truncates, it does not round to nearest. -/
theorem frame_sampler_rounding_cex :
    frame_indices 4 3 = [0, 1, 3]
    ∧ frame_indices_rounded 4 3 = [0, 2, 3]
    ∧ frame_indices 4 3 ≠ frame_indices_rounded 4 3 := by
  have h1 : frame_indices 4 3 = [0, 1, 3] := by
    rw [frame_indices, if_neg (by norm_num),
      show List.range 3 = [0, 1, 2] from rfl]
    simp only [List.map_cons, List.map_nil]
    norm_num [npTrunc]
  have h2 : frame_indices_rounded 4 3 = [0, 2, 3] := by
    rw [frame_indices_rounded, if_neg (by norm_num),
      show List.range 3 = [0, 1, 2] from rfl]
    simp only [List.map_cons, List.map_nil]
    norm_num [round_eq]
  refine ⟨h1, h2, ?_⟩
  rw [h1, h2]
  decide

/-- C5: with `num_tables = 1` the frame selection is exactly the first
frame (index 0), and with `num_tables = num_frames` it is every frame
index `0, 1, ..., num_frames - 1` exactly once, in increasing time
order. -/
theorem frame_sampler_endpoint_counts (nf : ℕ) (hnf : 1 ≤ nf) :
    frame_indices nf 1 = [0]
    ∧ frame_indices nf nf = (List.range nf).map (fun i : ℕ => (i : ℤ)) := by
  constructor
  · rw [frame_indices, if_pos rfl]
  · by_cases h1 : nf = 1
    · subst h1
      rw [frame_indices, if_pos rfl]
      rfl
    · have hnf2 : 2 ≤ nf := by omega
      have hne : (nf : ℚ) - 1 ≠ 0 := by
        have : (2 : ℚ) ≤ (nf : ℚ) := by exact_mod_cast hnf2
        intro h
        nlinarith
      rw [frame_indices, if_neg h1]
      apply List.map_congr_left
      intro i hi
      rw [mul_div_assoc, div_self hne, mul_one, npTrunc, if_pos (by positivity)]
      exact Int.floor_natCast i

/-- C5 witness: three frames. -/
theorem frame_sampler_endpoint_counts_witness :
    (1 ≤ 3) ∧
    (frame_indices 3 1 = [0]
    ∧ frame_indices 3 3 = (List.range 3).map (fun i : ℕ => (i : ℤ))) :=
  ⟨by norm_num, frame_sampler_endpoint_counts 3 (by norm_num)⟩

/-! ## Morphing
(`WavetableSynthesizer.morph_wavetables`, wavetable.py lines 180-203) -/

/-- numpy scalar-times-array: `c * v`, elementwise. -/
def scale (c : ℚ) (v : List ℚ) : List ℚ := v.map (fun x => c * x)

/-- numpy elementwise addition of two 1-D arrays with broadcasting: equal
lengths add pointwise; a length-1 operand is repeated across the other;
any other shape pair raises `ValueError: operands could not be broadcast
together`. -/
def bcAdd (a b : List ℚ) : Option (List ℚ) :=
  if a.length = b.length then some (List.zipWith (fun x y => x + y) a b)
  else if b.length = 1 then some (a.map (fun x => x + b.headI))
  else if a.length = 1 then some (b.map (fun y => a.headI + y))
  else none

/-- numpy row assignment `morphed[i] = v` where row `i` has `target_len`
slots: succeeds when `v` has exactly that length, broadcasts a length-1
`v` across the row, and raises otherwise. -/
def assignRow (target_len : ℕ) (v : List ℚ) : Option (List ℚ) :=
  if v.length = target_len then some v
  else if v.length = 1 then some (List.replicate target_len v.headI)
  else none

/-- Shallow embedding of `WavetableSynthesizer.morph_wavetables`: rows are
built as `(1 - alpha) * wavetable1 + alpha * wavetable2` with
`alpha = i / (num_steps - 1)` and stored into `np.zeros((num_steps,
len(wavetable1)))`. `num_steps = 1` raises `ZeroDivisionError` (the
division `0 / 0` in the alpha computation happens before any array
arithmetic); `num_steps = 0` never enters the loop and returns the empty
stack. -/
def morph_wavetables (w1 w2 : List ℚ) (num_steps : ℕ) : Option (List (List ℚ)) :=
  if num_steps = 0 then some []
  else if num_steps = 1 then none
  else traverseOpt (fun i : ℕ =>
    (bcAdd (scale (1 - (i : ℚ) / ((num_steps : ℚ) - 1)) w1)
        (scale ((i : ℚ) / ((num_steps : ℚ) - 1)) w2)).bind
      (assignRow w1.length))
    (List.range num_steps)

theorem zipWith_left_of_length_eq {α β : Type} (l1 : List α) (l2 : List β)
    (h : l1.length = l2.length) :
    List.zipWith (fun a _ => a) l1 l2 = l1 := by
  induction l1 generalizing l2 with
  | nil => simp
  | cons a l ih =>
      cases l2 with
      | nil => simp at h
      | cons b l2 =>
          simp only [List.zipWith_cons_cons]
          rw [ih l2 (by simpa using h)]

theorem zipWith_right_of_length_eq {α β : Type} (l1 : List α) (l2 : List β)
    (h : l1.length = l2.length) :
    List.zipWith (fun _ b => b) l1 l2 = l2 := by
  induction l1 generalizing l2 with
  | nil => cases l2 with
    | nil => simp
    | cons b l2 => simp at h
  | cons a l ih =>
      cases l2 with
      | nil => simp at h
      | cons b l2 =>
          simp only [List.zipWith_cons_cons]
          rw [ih l2 (by simpa using h)]

/-- One loop iteration with equal-length wavetables: the row is the exact
linear blend. -/
theorem morph_step_eq (w1 w2 : List ℚ) (hl : w1.length = w2.length) (c1 c2 : ℚ) :
    (bcAdd (scale c1 w1) (scale c2 w2)).bind (assignRow w1.length)
      = some (List.zipWith (fun a b => c1 * a + c2 * b) w1 w2) := by
  rw [bcAdd, if_pos (by simp [scale, hl])]
  rw [Option.some_bind]
  rw [assignRow, if_pos (by simp [scale, hl])]
  rw [scale, scale, List.zipWith_map]

/-- One loop iteration when the second wavetable has length 1 (and the
first a different length): numpy broadcasting makes the addition succeed
anyway. -/
theorem morph_step_bcast (w1 w2 : List ℚ) (h2 : w2.length = 1)
    (hl : w1.length ≠ w2.length) (c1 c2 : ℚ) :
    (bcAdd (scale c1 w1) (scale c2 w2)).bind (assignRow w1.length)
      = some ((scale c1 w1).map (fun x => x + (scale c2 w2).headI)) := by
  rw [bcAdd, if_neg (by simp [scale]; omega), if_pos (by simp [scale, h2])]
  rw [Option.some_bind]
  rw [assignRow, if_pos (by simp [scale])]

/-- One loop iteration with mismatched lengths and `len(wavetable2) ≠ 1`:
the iteration raises (either the addition cannot broadcast, or with
`len(wavetable1) = 1` the row assignment cannot). -/
theorem morph_step_none (w1 w2 : List ℚ) (hl : w1.length ≠ w2.length)
    (h2 : w2.length ≠ 1) (c1 c2 : ℚ) :
    (bcAdd (scale c1 w1) (scale c2 w2)).bind (assignRow w1.length) = none := by
  by_cases h1 : w1.length = 1
  · rw [bcAdd, if_neg (by simp [scale]; omega), if_neg (by simp [scale]; omega),
      if_pos (by simp [scale, h1])]
    rw [Option.some_bind]
    rw [assignRow, if_neg (by simp [scale]; omega), if_neg (by simp [scale]; omega)]
  · rw [bcAdd, if_neg (by simp [scale]; omega), if_neg (by simp [scale]; omega),
      if_neg (by simp [scale, h1])]
    rfl

theorem traverseOpt_isSome_of {α β : Type} (f : α → Option β) (l : List α)
    (h : ∀ a ∈ l, (f a).isSome = true) : (traverseOpt f l).isSome = true := by
  induction l with
  | nil => rfl
  | cons a l ih =>
      rcases Option.isSome_iff_exists.mp (h a (by simp)) with ⟨b, hb⟩
      rcases Option.isSome_iff_exists.mp (ih (fun x hx => h x (by simp [hx]))) with ⟨bs, hbs⟩
      simp [traverseOpt, hb, hbs]

/-! ### Claim theorems for morphing -/

/-- C6: for equal-length wavetables and `num_steps ≥ 2`, `morph_wavetables`
returns `num_steps` rows, row `i` being the exact linear blend
`(1 - alpha) * A + alpha * B` with `alpha = i / (num_steps - 1)`; the first
row equals the first wavetable exactly and the last row equals the second
wavetable exactly. -/
theorem morph_wavetables_blend (w1 w2 : List ℚ) (n : ℕ)
    (hlen : w1.length = w2.length) (hn : 2 ≤ n) :
    ∃ rows, morph_wavetables w1 w2 n = some rows
      ∧ rows.length = n
      ∧ (∀ i : ℕ, i < n → rows[i]? = some (List.zipWith
          (fun a b => (1 - (i : ℚ) / ((n : ℚ) - 1)) * a
            + ((i : ℚ) / ((n : ℚ) - 1)) * b) w1 w2))
      ∧ rows[0]? = some w1
      ∧ rows[n - 1]? = some w2 := by
  have hn0 : n ≠ 0 := by omega
  have hn1 : n ≠ 1 := by omega
  have heq : morph_wavetables w1 w2 n = some ((List.range n).map (fun i : ℕ =>
      List.zipWith (fun a b => (1 - (i : ℚ) / ((n : ℚ) - 1)) * a
        + ((i : ℚ) / ((n : ℚ) - 1)) * b) w1 w2)) := by
    rw [morph_wavetables, if_neg hn0, if_neg hn1]
    exact traverseOpt_some_of _ _ _ (fun i _ => morph_step_eq w1 w2 hlen _ _)
  have hget : ∀ i : ℕ, i < n → ((List.range n).map (fun i : ℕ =>
      List.zipWith (fun a b => (1 - (i : ℚ) / ((n : ℚ) - 1)) * a
        + ((i : ℚ) / ((n : ℚ) - 1)) * b) w1 w2))[i]? =
      some (List.zipWith (fun a b => (1 - (i : ℚ) / ((n : ℚ) - 1)) * a
        + ((i : ℚ) / ((n : ℚ) - 1)) * b) w1 w2) := by
    intro i hi
    rw [List.getElem?_map, List.getElem?_range hi, Option.map_some']
  refine ⟨_, heq, by simp, hget, ?_, ?_⟩
  · rw [hget 0 (by omega)]
    have h0 : List.zipWith (fun a b => (1 - ((0 : ℕ) : ℚ) / ((n : ℚ) - 1)) * a
        + (((0 : ℕ) : ℚ) / ((n : ℚ) - 1)) * b) w1 w2 = w1 := by
      simp only [Nat.cast_zero, zero_div, sub_zero, one_mul, zero_mul, add_zero]
      exact zipWith_left_of_length_eq w1 w2 hlen
    rw [h0]
  · rw [hget (n - 1) (by omega)]
    have hcast : (((n - 1 : ℕ) : ℚ)) = (n : ℚ) - 1 := by
      push_cast [Nat.cast_sub (by omega : 1 ≤ n)]
      ring
    have hne : (n : ℚ) - 1 ≠ 0 := by
      have h2 : (2 : ℚ) ≤ (n : ℚ) := by exact_mod_cast hn
      intro h
      nlinarith
    have hlast : List.zipWith (fun a b => (1 - ((n - 1 : ℕ) : ℚ) / ((n : ℚ) - 1)) * a
        + (((n - 1 : ℕ) : ℚ) / ((n : ℚ) - 1)) * b) w1 w2 = w2 := by
      rw [hcast, div_self hne]
      simp only [sub_self, zero_mul, one_mul, zero_add]
      exact zipWith_right_of_length_eq w1 w2 hlen
    rw [hlast]

/-- C6 witness: morphing `[1, 2]` into `[3, 5]` in four steps. -/
theorem morph_wavetables_blend_witness :
    (([(1 : ℚ), 2].length = [(3 : ℚ), 5].length) ∧ 2 ≤ 4) ∧
    (∃ rows, morph_wavetables [(1 : ℚ), 2] [(3 : ℚ), 5] 4 = some rows
      ∧ rows.length = 4
      ∧ (∀ i : ℕ, i < 4 → rows[i]? = some (List.zipWith
          (fun a b => (1 - (i : ℚ) / (((4 : ℕ) : ℚ) - 1)) * a
            + ((i : ℚ) / (((4 : ℕ) : ℚ) - 1)) * b) [(1 : ℚ), 2] [(3 : ℚ), 5]))
      ∧ rows[0]? = some [(1 : ℚ), 2]
      ∧ rows[4 - 1]? = some [(3 : ℚ), 5]) :=
  ⟨⟨by norm_num, by norm_num⟩,
    morph_wavetables_blend [(1 : ℚ), 2] [(3 : ℚ), 5] 4 (by norm_num) (by norm_num)⟩

/-- C7 (amended): `morph_wavetables` raises exactly when `num_steps = 1`
(integer `ZeroDivisionError` in the alpha computation), or `num_steps ≥ 2`
and the wavetable lengths differ with the second wavetable's length not 1
(a broadcast failure). In particular `num_steps = 0` does NOT raise — the
loop body never runs and an empty stack is returned — and an unequal-length
pair whose second wavetable has a single sample is silently broadcast, not
rejected. Equal lengths with `num_steps ≥ 2` never raise. -/
theorem morph_wavetables_raises_iff (w1 w2 : List ℚ) (n : ℕ) :
    morph_wavetables w1 w2 n = none ↔
      (n = 1 ∨ (2 ≤ n ∧ w1.length ≠ w2.length ∧ w2.length ≠ 1)) := by
  rcases n with _ | n
  · simp [morph_wavetables]
  rcases n with _ | n
  · simp [morph_wavetables]
  rw [morph_wavetables, if_neg (by omega), if_neg (by omega)]
  by_cases hl : w1.length = w2.length
  · have hsome := traverseOpt_isSome_of
      (fun i : ℕ =>
        (bcAdd (scale (1 - (i : ℚ) / (((n + 2 : ℕ) : ℚ) - 1)) w1)
            (scale ((i : ℚ) / (((n + 2 : ℕ) : ℚ) - 1)) w2)).bind
          (assignRow w1.length))
      (List.range (n + 2))
      (fun i _ => by
        simp only [morph_step_eq w1 w2 hl]
        rfl)
    exact iff_of_false (Option.isSome_iff_ne_none.mp hsome) (by omega)
  · by_cases h2 : w2.length = 1
    · have hsome := traverseOpt_isSome_of
        (fun i : ℕ =>
          (bcAdd (scale (1 - (i : ℚ) / (((n + 2 : ℕ) : ℚ) - 1)) w1)
              (scale ((i : ℚ) / (((n + 2 : ℕ) : ℚ) - 1)) w2)).bind
            (assignRow w1.length))
        (List.range (n + 2))
        (fun i _ => by
          simp only [morph_step_bcast w1 w2 h2 hl]
          rfl)
      exact iff_of_false (Option.isSome_iff_ne_none.mp hsome) (by omega)
    · have hnone := traverseOpt_none_of
        (fun i : ℕ =>
          (bcAdd (scale (1 - (i : ℚ) / (((n + 2 : ℕ) : ℚ) - 1)) w1)
              (scale ((i : ℚ) / (((n + 2 : ℕ) : ℚ) - 1)) w2)).bind
            (assignRow w1.length))
        (show (0 : ℕ) ∈ List.range (n + 2) by simp)
        (morph_step_none w1 w2 hl h2 _ _)
      exact iff_of_true hnone (by omega)

/-- C7 counterexample: with `num_steps = 0` (which is `< 2`) the morph does
not raise: the loop never executes and the empty stack is returned. -/
theorem morph_wavetables_zero_steps_cex :
    morph_wavetables [(1 : ℚ), 2] [(3 : ℚ), 4] 0 = some [] ∧ (0 : ℕ) < 2 :=
  ⟨rfl, by norm_num⟩

/-! ## Output formatting: save_features
(`OutputFormatter.save_features`, formatter.py lines 150-180) -/

/-- Python `s.endswith(suffix)` on character lists. -/
def pyEndsWith (s suffix : List Char) : Bool :=
  if suffix.length ≤ s.length then s.drop (s.length - suffix.length) == suffix
  else false

/-- The four writers `save_features` can dispatch to. -/
inductive FeatureWriter where
  | json
  | csv
  | npz
  | txt
deriving DecidableEq

/-- The format name each writer serves. -/
def writerName : FeatureWriter → List Char
  | .json => "json".toList
  | .csv => "csv".toList
  | .npz => "npz".toList
  | .txt => "txt".toList

/-- The recognized format selectors. -/
def recognizedFormats : List (List Char) :=
  ["json".toList, "csv".toList, "npz".toList, "txt".toList]

/-- The `if format == 'json': ... elif ... else: raise ValueError` chain. -/
def dispatchFormat (format : List Char) : Option FeatureWriter :=
  if format = "json".toList then some .json
  else if format = "csv".toList then some .csv
  else if format = "npz".toList then some .npz
  else if format = "txt".toList then some .txt
  else none

/-- Path fixing: `if not output_path.endswith(f'.{format}'): output_path = f"{output_path}.{format}"`.
The `str(Path(output_path))` normalization happens before this; the model
quantifies over the already-normalized path string. -/
def savePath (output_path format : List Char) : List Char :=
  if pyEndsWith output_path ('.' :: format) then output_path
  else output_path ++ '.' :: format

/-- Shallow embedding of `OutputFormatter.save_features`: fix the path
extension, then dispatch on the format string; an unrecognized format
raises `ValueError` before any writer runs (so no bytes are written), a
recognized one invokes its writer and the path is returned. The result
records which writer ran and the returned path. -/
def save_features (output_path format : List Char) :
    Option (FeatureWriter × List Char) :=
  let p := savePath output_path format
  match dispatchFormat format with
  | none => none
  | some w => some (w, p)

theorem pyEndsWith_append (p suf : List Char) :
    pyEndsWith (p ++ suf) suf = true := by
  unfold pyEndsWith
  rw [if_pos (by simp)]
  have hlen : (p ++ suf).length - suf.length = p.length := by simp
  rw [hlen, List.drop_left]
  simp

theorem savePath_endsWith (p format : List Char) :
    pyEndsWith (savePath p format) ('.' :: format) = true := by
  unfold savePath
  split
  · rename_i h
    exact h
  · exact pyEndsWith_append p ('.' :: format)

/-- C8: a format selector outside `{json, csv, npz, txt}` makes
`save_features` raise at serialization time with no writer invoked (no
bytes committed); a recognized selector dispatches to the writer of that
name and returns the output path, which ends with `'.' ++ format`. -/
theorem save_features_dispatch (output_path format : List Char) :
    (format ∉ recognizedFormats → save_features output_path format = none)
    ∧ (format ∈ recognizedFormats → ∃ w, save_features output_path format
        = some (w, savePath output_path format)
        ∧ writerName w = format
        ∧ pyEndsWith (savePath output_path format) ('.' :: format) = true) := by
  constructor
  · intro hmem
    have hd : dispatchFormat format = none := by
      unfold dispatchFormat
      rw [if_neg, if_neg, if_neg, if_neg] <;>
        (intro h; exact hmem (by simp [recognizedFormats, h]))
    simp [save_features, hd]
  · intro hmem
    simp only [recognizedFormats, List.mem_cons, List.not_mem_nil, or_false] at hmem
    rcases hmem with h | h | h | h <;> subst h
    · exact ⟨.json, rfl, rfl, savePath_endsWith _ _⟩
    · exact ⟨.csv, rfl, rfl, savePath_endsWith _ _⟩
    · exact ⟨.npz, rfl, rfl, savePath_endsWith _ _⟩
    · exact ⟨.txt, rfl, rfl, savePath_endsWith _ _⟩

/-! ## Wavetable serialization
(`WavetableSynthesizer.save_wavetable`, wavetable.py lines 116-142) -/

/-- The argument of `save_wavetable`: a single table (1-D array) or a stack
(2-D array). -/
inductive WavetableInput where
  | one (t : List ℚ)
  | many (ts : List (List ℚ))

/-- Step `if wavetable.ndim == 1: wavetable = wavetable.reshape(1, -1)`:
a 1-D input becomes a one-row stack. -/
def asStack : WavetableInput → List (List ℚ)
  | .one t => [t]
  | .many ts => ts

/-- Shallow embedding of `WavetableSynthesizer.save_wavetable` up to the
audio write: lift a 1-D input to a single-row stack, flatten in row-major
order (`wavetable.flatten()` concatenates the rows), and rescale to peak
0.9 unless the peak is zero. The result is the sample sequence passed to
`sf.write`. -/
def save_wavetable (wt : WavetableInput) : List ℚ :=
  let flattened := (asStack wt).flatten
  if 0 < peakAbs flattened then
    flattened.map (fun x => x / peakAbs flattened * (9 / 10))
  else flattened

/-- C9 (amended): `save_wavetable` treats a 1-D table exactly as the
single-table stack, flattens by concatenating the tables in order, and the
written samples have peak absolute amplitude exactly 0.9 whenever the
flattened sequence is not all-zero; an all-zero input is written unchanged
(peak 0), because the rescaling is skipped to avoid dividing by zero. -/
theorem save_wavetable_peak (wt : WavetableInput) :
    (∀ t, save_wavetable (.one t) = save_wavetable (.many [t]))
    ∧ (0 < peakAbs ((asStack wt).flatten) →
        peakAbs (save_wavetable wt) = 9 / 10)
    ∧ (peakAbs ((asStack wt).flatten) = 0 →
        save_wavetable wt = (asStack wt).flatten) := by
  refine ⟨fun t => rfl, ?_, ?_⟩
  · intro hp
    rw [save_wavetable]
    simp only [if_pos hp]
    have hfun : (fun x => x / peakAbs ((asStack wt).flatten) * (9 / 10))
        = (fun x => x * ((9 / 10) / peakAbs ((asStack wt).flatten))) := by
      funext x
      rw [div_mul_eq_mul_div, mul_div_assoc]
    rw [hfun, peakAbs_map_mul _ (by positivity)]
    rw [mul_comm, div_mul_eq_mul_div, mul_div_assoc, div_self (ne_of_gt hp), mul_one]
  · intro hp
    rw [save_wavetable]
    simp only [hp, lt_irrefl, if_false]

/-- C9 witness for the positive branch: the stack `[[1, 0], [0, 2]]`
flattens to `[1, 0, 0, 2]` with peak 2 and is written with peak 0.9. -/
theorem save_wavetable_peak_witness :
    (0 < peakAbs ((asStack (.many [[(1 : ℚ), 0], [0, 2]])).flatten) →
        peakAbs (save_wavetable (.many [[(1 : ℚ), 0], [0, 2]])) = 9 / 10)
    ∧ 0 < peakAbs ((asStack (.many [[(1 : ℚ), 0], [0, 2]])).flatten) :=
  ⟨(save_wavetable_peak (.many [[(1 : ℚ), 0], [0, 2]])).2.1, by
    norm_num [asStack, peakAbs]⟩

/-- C9 counterexample: the all-zero single table `[0]` is written
unchanged with peak 0, not rescaled to peak 0.9. -/
theorem save_wavetable_zero_cex :
    save_wavetable (.one [0]) = [0]
    ∧ peakAbs ([(0 : ℚ)]) = 0
    ∧ (0 : ℚ) ≠ 9 / 10 := by
  refine ⟨?_, by norm_num [peakAbs], by norm_num⟩
  rw [save_wavetable]
  norm_num [asStack, peakAbs]

/-! ## NPZ export
(`OutputFormatter.to_npz`, formatter.py lines 87-115) -/

mutual
/-- Python values a feature dictionary can hold, as `to_npz` distinguishes
them by `isinstance`: numpy arrays, lists, tuples, ints, floats, strings
(the representative non-numeric leaf), and nested dicts. Numeric array
contents are modelled as rational sample lists. -/
inductive PyVal where
  | arr (xs : List ℚ)
  | lst (xs : List ℚ)
  | tup (xs : List ℚ)
  | intV (n : ℤ)
  | floatV (q : ℚ)
  | strV (s : List Char)
  | dict (entries : PyEntries)
/-- An ordered dict of string keys and python values. -/
inductive PyEntries where
  | nil
  | cons (key : List Char) (val : PyVal) (rest : PyEntries)
end

/-- Key flattening `full_key = f"{prefix}_{key}" if prefix else key`. -/
def joinKey (pre key : List Char) : List Char :=
  if pre = [] then key else pre ++ '_' :: key

mutual
/-- What one value contributes to the `arrays` dict of `to_npz` under its
flattened key: numpy arrays are kept as-is, lists and tuples are wrapped by
`np.array`, int/float scalars become one-element arrays, every other leaf
(e.g. a string) is silently skipped, and a dict recurses. -/
def npzVal (fullKey : List Char) : PyVal → List (List Char × List ℚ)
  | .arr xs => [(fullKey, xs)]
  | .lst xs => [(fullKey, xs)]
  | .tup xs => [(fullKey, xs)]
  | .intV n => [(fullKey, [(n : ℚ)])]
  | .floatV q => [(fullKey, [q])]
  | .strV _ => []
  | .dict es => npzEntries fullKey es
/-- The `process_dict` loop over a dict's items. -/
def npzEntries (pre : List Char) : PyEntries → List (List Char × List ℚ)
  | .nil => []
  | .cons k v rest => npzVal (joinKey pre k) v ++ npzEntries pre rest
end

/-- Shallow embedding of `OutputFormatter.to_npz` up to the
`np.savez_compressed` call: the ordered key/array assignments made into
`arrays`. -/
def to_npz (data : PyEntries) : List (List Char × List ℚ) :=
  npzEntries [] data

mutual
/-- The claim's characterization of which keys are saved: the flattened
keys of exactly the array/list/tuple/int/float leaves — stated from the
spec side, independently of the wrapping `to_npz` performs. -/
def savableKeysVal (fullKey : List Char) : PyVal → List (List Char)
  | .arr _ => [fullKey]
  | .lst _ => [fullKey]
  | .tup _ => [fullKey]
  | .intV _ => [fullKey]
  | .floatV _ => [fullKey]
  | .strV _ => []
  | .dict es => savableKeysEntries fullKey es
/-- Flattened savable keys of a dict. -/
def savableKeysEntries (pre : List Char) : PyEntries → List (List Char)
  | .nil => []
  | .cons k v rest => savableKeysVal (joinKey pre k) v ++ savableKeysEntries pre rest
end

mutual
theorem npzVal_keys : ∀ (fullKey : List Char) (v : PyVal),
    (npzVal fullKey v).map Prod.fst = savableKeysVal fullKey v
  | _, .arr _ => rfl
  | _, .lst _ => rfl
  | _, .tup _ => rfl
  | _, .intV _ => rfl
  | _, .floatV _ => rfl
  | _, .strV _ => rfl
  | k, .dict es => by
      simp only [npzVal, savableKeysVal]
      exact npzEntries_keys k es
theorem npzEntries_keys : ∀ (pre : List Char) (es : PyEntries),
    (npzEntries pre es).map Prod.fst = savableKeysEntries pre es
  | _, .nil => rfl
  | pre, .cons k v rest => by
      simp only [npzEntries, savableKeysEntries, List.map_append]
      rw [npzVal_keys (joinKey pre k) v, npzEntries_keys pre rest]
end

/-- C10 (amended): `to_npz` saves exactly the flattened keys of the numpy
array / list / tuple / int / float leaves; a leaf of any other type, such
as a string, contributes no entry and is skipped silently (no error is
raised — `to_npz` is total). Its flattened key is therefore absent from
the output unless another savable leaf flattens to the same joined key
(the `_`-joined flattening can collide). -/
theorem to_npz_savable (data : PyEntries) :
    (to_npz data).map Prod.fst = savableKeysEntries [] data
    ∧ (∀ pre k s rest,
        npzEntries pre (.cons k (.strV s) rest) = npzEntries pre rest) := by
  refine ⟨npzEntries_keys [] data, ?_⟩
  intro pre k s rest
  simp [npzEntries, npzVal]

/-- The colliding dictionary `{"a": {"b": "x"}, "a_b": 5}`: the string leaf
at flattened key `a_b` is dropped, but the int leaf `"a_b"` saves under the
same key. -/
def npzCollisionData : PyEntries :=
  .cons "a".toList (.dict (.cons "b".toList (.strV "x".toList) .nil))
    (.cons "a_b".toList (.intV 5) .nil)

/-- C10 counterexample: in `{"a": {"b": "x"}, "a_b": 5}` the string leaf's
flattened key is `a_b`, and although the string itself is omitted, the key
`a_b` is present in the saved bundle (tied to the int leaf), so "its key is
absent from the output" fails as stated. -/
theorem to_npz_collision_cex :
    to_npz npzCollisionData = [("a_b".toList, [(5 : ℚ)])]
    ∧ joinKey "a".toList "b".toList = "a_b".toList
    ∧ "a_b".toList ∈ (to_npz npzCollisionData).map Prod.fst := by
  refine ⟨?_, by decide, ?_⟩ <;> decide
